import Mathlib

/-!
Verification development for the commit-show cache and the line-indexed
text buffer of the repository under review.

The embedding is shallow:

* `LargeString` (from src/src/ui/utils/large_string.rs) is modelled over
  byte lists (`List Nat`); the scanning loop of `LargeString::new` is
  embedded as a fuel-based recursion (the fuel bounds the number of loop
  iterations; `bytes.length` always suffices because the loop index grows
  strictly on every iteration).
* `CommitShowKey`, `CommitShowValue` and `CommitShowCache`
  (from src/src/ui/commit_show_cache.rs) are modelled with association
  lists standing in for `HashMap` (lookup finds the unique binding, insert
  replaces any previous binding) and plain lists standing in for `HashSet`.
  Iterating the keys of a `HashMap` has an unspecified order in Rust; the
  model iterates the association list in its stored order, which realises
  one admissible execution.
* `Head` and `ChangeId` come from the crate module `crate::commander`,
  whose source is not part of the reviewed tree.  Modelled from the spec:
  a head (commit identity) is a content-addressed snapshot identifier
  carrying the stable change identity of its change, so it is a pair of a
  commit identifier and a change identifier.
-/

/-! ## Association list helpers (model of HashMap) -/

/-- Lookup of the binding of a key in an association list, the model of
HashMap::get / contains_key. -/
def alookup {α β : Type} [DecidableEq α] : List (α × β) → α → Option β
  | [], _ => none
  | (k, v) :: rest, x => if x = k then some v else alookup rest x

/-- Removal of every binding of a key, the model of HashMap::remove. -/
def aerase {α β : Type} [DecidableEq α] : List (α × β) → α → List (α × β)
  | [], _ => []
  | (k, v) :: rest, x => if k = x then aerase rest x else (k, v) :: aerase rest x

/-- Insert or replace the binding of a key, the model of HashMap::insert. -/
def ainsert {α β : Type} [DecidableEq α] (l : List (α × β)) (x : α) (v : β) :
    List (α × β) :=
  (x, v) :: aerase l x

/-! ## LargeString (src/src/ui/utils/large_string.rs) -/

/-- Byte test from LargeString::new: `c == b'\n' || c == b'\r'`. -/
def is_eol_char (c : Nat) : Bool := c == 10 || c == 13

/-- Inner loop of LargeString::new:
`while i < bytes.len() && !is_eol_char(bytes[i]) { i += 1 }`.
The fuel argument bounds the iteration count; `bytes.length` suffices. -/
def skip_non_eol : Nat → List Nat → Nat → Nat
  | 0, _, i => i
  | fuel + 1, bytes, i =>
    if i < bytes.length && !is_eol_char (bytes.getD i 0) then
      skip_non_eol fuel bytes (i + 1)
    else i

/-- Pair step of LargeString::new:
`if i + 1 < bytes.len() && is_eol_char(bytes[i + 1]) && bytes[i] != bytes[i + 1] { i += 1 }`. -/
def eol_pair_skip (bytes : List Nat) (i : Nat) : Nat :=
  if i + 1 < bytes.length && is_eol_char (bytes.getD (i + 1) 0)
      && !(bytes.getD i 0 == bytes.getD (i + 1) 0) then
    i + 1
  else i

/-- Outer loop of LargeString::new: at each line start push the index,
skip the non-EOL run, fold a two-byte terminator pair into one, and step
past the final EOL byte of the line.  The fuel argument bounds the
iteration count; `bytes.length` suffices. -/
def scan_lines : Nat → List Nat → Nat → List Nat
  | 0, _, _ => []
  | fuel + 1, bytes, i =>
    if i < bytes.length then
      i :: scan_lines fuel bytes
        (eol_pair_skip bytes (skip_non_eol bytes.length bytes i) + 1)
    else []

/-- Model of the LargeString struct: the stored byte content together with
the first byte index of every line. -/
structure LargeString where
  content : List Nat
  line_start : List Nat
deriving DecidableEq

/-- LargeString::new. -/
def LargeString.new (content : List Nat) : LargeString :=
  { content := content, line_start := scan_lines content.length content 0 }

/-- LargeString::lines. -/
def LargeString.lines (ls : LargeString) : Nat := ls.line_start.length

/-- Offset helper of LargeString::render:
`self.line_start.get(line).copied().unwrap_or(end_of_content)`. -/
def LargeString.get_line_start (ls : LargeString) (line : Nat) : Nat :=
  ls.line_start.getD line ls.content.length

/-- Byte window `l[start..stop]` (the argument order of a Rust range
slice; the callers below establish `start ≤ stop ≤ l.length`). -/
def listSlice {α : Type} (l : List α) (start stop : Nat) : List α :=
  (l.drop start).take (stop - start)

/-- Byte-window selection of LargeString::render under exact index
arithmetic: the slice of the content from the start offset of `top_line`
to the start offset of `top_line + line_count`, out-of-range lines
falling back to end-of-content.  This is the value the slice takes when
it succeeds; `LargeString.render_window_checked` below is the
usize-faithful refinement that models the overflow of the index sum and
the panic condition of the slice, and the two agree whenever
`top_line + line_count` does not overflow usize. -/
def LargeString.render_window (ls : LargeString) (top_line line_count : Nat) :
    List Nat :=
  listSlice ls.content (ls.get_line_start top_line)
    (ls.get_line_start (top_line + line_count))

/-- Modulus of the usize type; the model fixes the 64-bit platform. -/
def USIZE_MOD : Nat := 2 ^ 64

/-- Release-mode wrapping usize addition, the arithmetic of
`top_line + line_count` inside LargeString::render; the debug build
panics exactly when the mathematical sum reaches `USIZE_MOD`. -/
def usize_add (a b : Nat) : Nat := (a + b) % USIZE_MOD

/-- Usize-faithful byte-window selection of LargeString::render: the
line-index sum wraps as usize addition, and the Rust slice
`&content[start..end]` is modelled through its precondition: `some`
window when start is at most end and end at most the content length,
`none` for the panic otherwise.  (Line starts sit at offset zero or
right after a single-byte EOL character, which is always a UTF-8 char
boundary, so the boundary precondition of the slice cannot fail.) -/
def LargeString.render_window_checked (ls : LargeString)
    (top_line line_count : Nat) : Option (List Nat) :=
  let start := ls.get_line_start top_line
  let stop := ls.get_line_start (usize_add top_line line_count)
  if start ≤ stop ∧ stop ≤ ls.content.length then
    some (listSlice ls.content start stop)
  else none

/-- Full LargeString::render: decode the selected window; on a decode
failure substitute the plain-text rendering of the error
(`Text::from(format!("{}", err))`).  The ANSI decoder (crate ansi_to_tui)
and the Text type (crate ratatui) are external collaborators, modelled as
parameters; the error string stands for the Display output of the decode
error. -/
def LargeString.render {α : Type} (decode : List Nat → Except String α)
    (fromText : String → α) (ls : LargeString) (top_line line_count : Nat) : α :=
  match decode (ls.render_window top_line line_count) with
  | .ok text => text
  | .error err => fromText err

/-- Specification-level line counter: a line is a run of non-EOL bytes
closed by a terminator, where a terminator is one EOL byte or two
adjacent distinct EOL bytes taken as one; a final run without a
terminator also counts as a line. -/
def countLines : List Nat → Nat
  | [] => 0
  | [_] => 1
  | c :: d :: rest =>
    if is_eol_char c then
      if is_eol_char d && !(c == d) then 1 + countLines rest
      else 1 + countLines (d :: rest)
    else countLines (d :: rest)

/-- Tiling helper for the round-trip proof: concatenate the windows cut
at consecutive offsets of a list, the final window running to
end-of-content. -/
def sliceJoin (bytes : List Nat) : List Nat → List Nat
  | [] => []
  | a :: rest => listSlice bytes a (rest.headD bytes.length) ++ sliceJoin bytes rest

/-! ## Commit show cache (src/src/ui/commit_show_cache.rs) -/

/-- Modelled from the spec: the stable logical identifier of a unit of
work (crate::commander::ids::ChangeId, source not in the reviewed tree). -/
abbrev ChangeId : Type := Nat

/-- Modelled from the spec: a commit identity (crate::commander::log::Head,
source not in the reviewed tree) is a content-addressed snapshot
identifier; it carries the change identity of its change, read in the
cache as `head.change_id`. -/
structure Head where
  commit_id : Nat
  change_id : ChangeId
deriving DecidableEq

/-- DiffFormat from src/src/env.rs. -/
inductive DiffFormat where
  | ColorWords
  | Git
  | DiffTool (tool : Option String)
  | Summary
  | Stat
deriving DecidableEq

/-- CommitShowKey: commit id, format, and render width (width meaningful
only for DiffFormat::DiffTool). -/
structure CommitShowKey where
  id : Head
  format : DiffFormat
  width : Nat
deriving DecidableEq

/-- CommitShowKey::new: keep the width only for the DiffTool format,
otherwise normalize it to zero. -/
def CommitShowKey.new (id : Head) (format : DiffFormat) (width : Nat) :
    CommitShowKey :=
  { id := id, format := format,
    width := match format with
      | DiffFormat.DiffTool _ => width
      | _ => 0 }

/-- CommitShowValue: the originating key and the indexed output. -/
structure CommitShowValue where
  key : CommitShowKey
  jj_output : LargeString
deriving DecidableEq

/-- CommitShowValue::new: index the raw output and store both key and
value. -/
def CommitShowValue.new (key : CommitShowKey) (value : List Nat) :
    CommitShowValue :=
  { key := key, jj_output := LargeString.new value }

/-- CommitShowCache state: the active key sets per change, the stale key
per change, and the store of cached values. -/
structure CommitShowCache where
  active_commits : List (ChangeId × List CommitShowKey)
  old_commits : List (ChangeId × CommitShowKey)
  commit_document : List (CommitShowKey × CommitShowValue)

/-- CommitShowCache::new. -/
def CommitShowCache.new : CommitShowCache :=
  { active_commits := [], old_commits := [], commit_document := [] }

/-- CommitShowCache::set_active: rebuild `active_commits` from the head
list (the template key with its id replaced by each head), then rebuild
`old_commits` from every stored key whose change id has no entry in
`active_commits`. -/
def CommitShowCache.set_active (c : CommitShowCache) (active_heads : List Head)
    (key : CommitShowKey) : CommitShowCache :=
  let active := active_heads.foldl
    (fun m head =>
      let k := { key with id := head }
      ainsert m k.id.change_id
        (List.insert k ((alookup m k.id.change_id).getD [])))
    []
  let old := (c.commit_document.map Prod.fst).foldl
    (fun m k =>
      if (alookup active k.id.change_id).isSome then m
      else ainsert m k.id.change_id k)
    []
  { active_commits := active, old_commits := old,
    commit_document := c.commit_document }

/-- CommitShowCache::has_exact_match: `commit_document.contains_key(key)`. -/
def CommitShowCache.has_exact_match (c : CommitShowCache)
    (key : CommitShowKey) : Bool :=
  (alookup c.commit_document key).isSome

/-- CommitShowCache::get: direct hit on the key, otherwise indirect hit
through the stale key of the change id, otherwise not-found. -/
def CommitShowCache.get (c : CommitShowCache) (key : CommitShowKey) :
    Option CommitShowValue :=
  if c.has_exact_match key then alookup c.commit_document key
  else
    match alookup c.old_commits key.id.change_id with
    | some old_key => alookup c.commit_document old_key
    | none => none

/-- CommitShowCache::insert_document: if the change id of the value has a
stale key, drop that key from the store and clear the stale binding; then
store the value under its own key. -/
def CommitShowCache.insert_document (c : CommitShowCache)
    (value : CommitShowValue) : CommitShowCache :=
  match alookup c.old_commits value.key.id.change_id with
  | some old_key =>
    { c with
      commit_document := ainsert (aerase c.commit_document old_key) value.key value,
      old_commits := aerase c.old_commits value.key.id.change_id }
  | none =>
    { c with commit_document := ainsert c.commit_document value.key value }

/-- Guard of CommitShowCache::get_or_insert deciding whether the compute
closure runs: `!self.has_exact_match(key)`. -/
def computeInvoked (c : CommitShowCache) (key : CommitShowKey) : Bool :=
  !(c.has_exact_match key)

/-- CommitShowCache::get_or_insert: on a miss compute and insert the
value, then return the result of `get` on the key (the Rust code unwraps
it; `none` models the unwrap panic). -/
def CommitShowCache.get_or_insert (c : CommitShowCache) (key : CommitShowKey)
    (fn_value : Unit → CommitShowValue) : CommitShowCache × Option CommitShowValue :=
  let c2 := if c.has_exact_match key then c else c.insert_document (fn_value ())
  (c2, c2.get key)

/-! ## Operation traces over one cache instance -/

/-- One public cache operation.  A getOrInsert op carries the raw output
its compute closure would produce; the closure then returns
`CommitShowValue.new key output`, honouring the documented caller
contract that the computed value carries exactly the requested key. -/
inductive CacheOp where
  | setActive (heads : List Head) (tmpl : CommitShowKey)
  | doGet (key : CommitShowKey)
  | insertDoc (value : CommitShowValue)
  | getOrInsert (key : CommitShowKey) (output : List Nat)
deriving DecidableEq

/-- State transition of one operation. -/
def CacheOp.apply (c : CommitShowCache) : CacheOp → CommitShowCache
  | .setActive heads tmpl => c.set_active heads tmpl
  | .doGet _ => c
  | .insertDoc v => c.insert_document v
  | .getOrInsert key output =>
    (c.get_or_insert key (fun _ => CommitShowValue.new key output)).1

/-- Whether an operation runs a compute closure in state `c`. -/
def CacheOp.invokesCompute (c : CommitShowCache) : CacheOp → Bool
  | .getOrInsert key _ => computeInvoked c key
  | _ => false

/-- Run a trace of operations from a starting state. -/
def runOps (c : CommitShowCache) (ops : List CacheOp) : CommitShowCache :=
  ops.foldl CacheOp.apply c

/-- Whether the operation at position `t` of a trace runs a compute
closure, in the state reached after the first `t` operations. -/
def invokedAt (c0 : CommitShowCache) (ops : List CacheOp) (t : Nat) : Bool :=
  match ops[t]? with
  | some op => op.invokesCompute (runOps c0 (ops.take t))
  | none => false

/-- The change id whose stale entry an operation may evict (the change id
of the value it inserts), if the operation inserts at all. -/
def opInsertChange : CacheOp → Option ChangeId
  | .insertDoc v => some v.key.id.change_id
  | .getOrInsert key _ => some key.id.change_id
  | _ => none

/-- Bookkeeping disjointness: a change id with a stale binding has no
active binding. -/
def ActiveOldDisjoint (c : CommitShowCache) : Prop :=
  ∀ cid : ChangeId, (alookup c.old_commits cid).isSome = true →
    alookup c.active_commits cid = none

/-! ## Lemmas: association lists -/

theorem alookup_aerase {α β : Type} [DecidableEq α] (l : List (α × β)) (x y : α) :
    alookup (aerase l x) y = if y = x then none else alookup l y := by
  induction l with
  | nil => simp [aerase, alookup]
  | cons p rest ih =>
    obtain ⟨k, v⟩ := p
    by_cases hkx : k = x
    · rw [aerase, if_pos hkx, ih]
      by_cases hyx : y = x
      · simp [hyx]
      · rw [if_neg hyx, if_neg hyx, alookup, if_neg (by rw [hkx]; exact hyx)]
    · rw [aerase, if_neg hkx, alookup]
      by_cases hyk : y = k
      · rw [if_pos hyk, if_neg (by rw [hyk]; exact hkx), alookup, if_pos hyk]
      · rw [if_neg hyk, ih]
        by_cases hyx : y = x
        · simp [hyx]
        · rw [if_neg hyx, if_neg hyx, alookup, if_neg hyk]

theorem alookup_ainsert {α β : Type} [DecidableEq α] (l : List (α × β)) (x : α)
    (v : β) (y : α) :
    alookup (ainsert l x v) y = if y = x then some v else alookup l y := by
  rw [ainsert, alookup]
  by_cases hyx : y = x
  · rw [if_pos hyx, if_pos hyx]
  · rw [if_neg hyx, if_neg hyx, alookup_aerase, if_neg hyx]

/-! ## Lemmas: the line scanner -/

theorem skip_non_eol_le (bytes : List Nat) :
    ∀ (fuel i : Nat), i ≤ skip_non_eol fuel bytes i := by
  intro fuel
  induction fuel with
  | zero => intro i; rw [skip_non_eol]
  | succ f ih =>
    intro i
    rw [skip_non_eol]
    by_cases hc : i < bytes.length && !is_eol_char (bytes.getD i 0)
    · rw [if_pos hc]; exact Nat.le_trans (Nat.le_succ i) (ih (i + 1))
    · rw [if_neg hc]

theorem skip_non_eol_out (bytes : List Nat) :
    ∀ (fuel i : Nat), bytes.length ≤ i → skip_non_eol fuel bytes i = i := by
  intro fuel i h
  cases fuel with
  | zero => rw [skip_non_eol]
  | succ f =>
    rw [skip_non_eol, if_neg]
    simp only [Bool.and_eq_true, decide_eq_true_eq, not_and]
    intro hlt
    omega

theorem eol_pair_skip_le (bytes : List Nat) (i : Nat) : i ≤ eol_pair_skip bytes i := by
  rw [eol_pair_skip]
  by_cases hc : i + 1 < bytes.length && is_eol_char (bytes.getD (i + 1) 0)
      && !(bytes.getD i 0 == bytes.getD (i + 1) 0)
  · rw [if_pos hc]; exact Nat.le_succ i
  · rw [if_neg hc]

theorem drop_cons_getD {l : List Nat} {n : Nat} (h : n < l.length) :
    l.drop n = l.getD n 0 :: l.drop (n + 1) := by
  rw [List.drop_eq_getElem_cons h, List.getD_eq_getElem _ _ h]


theorem countLines_cons_cons (c d : Nat) (rest : List Nat) :
    countLines (c :: d :: rest) =
      if is_eol_char c then
        if is_eol_char d && !(c == d) then 1 + countLines rest
        else 1 + countLines (d :: rest)
      else countLines (d :: rest) := rfl

theorem countLines_cons_non_eol (c : Nat) (rest : List Nat)
    (h : is_eol_char c = false) (hrest : rest ≠ []) :
    countLines (c :: rest) = countLines rest := by
  cases rest with
  | nil => exact absurd rfl hrest
  | cons d r =>
    rw [countLines_cons_cons, if_neg (by rw [h]; exact Bool.false_ne_true)]

theorem countLines_skip (bytes : List Nat) :
    ∀ (fuel i : Nat), bytes.length - i ≤ fuel → i < bytes.length →
      countLines (bytes.drop i) =
        1 + countLines
          (bytes.drop (eol_pair_skip bytes (skip_non_eol fuel bytes i) + 1)) := by
  intro fuel
  induction fuel with
  | zero => intro i hf hi; omega
  | succ f ih =>
    intro i hf hi
    rw [skip_non_eol]
    by_cases hc : i < bytes.length && !is_eol_char (bytes.getD i 0)
    · rw [if_pos hc]
      have hne : is_eol_char (bytes.getD i 0) = false := by
        rw [Bool.and_eq_true] at hc
        exact Bool.not_eq_true' .. |>.mp hc.2
      by_cases hi1 : i + 1 < bytes.length
      · have ihh := ih (i + 1) (by omega) hi1
        rw [drop_cons_getD hi]
        rw [countLines_cons_non_eol _ _ hne
          (by rw [← List.length_pos_iff_ne_nil, List.length_drop]; omega)]
        exact ihh
      · have hd1 : bytes.drop (i + 1) = [] := List.drop_eq_nil_of_le (by omega)
        rw [drop_cons_getD hi, hd1]
        rw [skip_non_eol_out bytes f (i + 1) (by omega)]
        have hp : eol_pair_skip bytes (i + 1) = i + 1 := by
          rw [eol_pair_skip, if_neg]
          simp only [Bool.and_eq_true, decide_eq_true_eq, not_and]
          intro h
          omega
        rw [hp]
        have hd2 : bytes.drop (i + 1 + 1) = [] := List.drop_eq_nil_of_le (by omega)
        rw [hd2]
        rfl
    · rw [if_neg hc]
      have heol : is_eol_char (bytes.getD i 0) = true := by
        cases h : is_eol_char (bytes.getD i 0)
        · refine absurd ?_ hc
          rw [Bool.and_eq_true, h]
          exact ⟨decide_eq_true hi, rfl⟩
        · rfl
      by_cases hi1 : i + 1 < bytes.length
      · rw [eol_pair_skip]
        by_cases hp : is_eol_char (bytes.getD (i + 1) 0)
            && !(bytes.getD i 0 == bytes.getD (i + 1) 0)
        · have hcond : (decide (i + 1 < bytes.length)
              && is_eol_char (bytes.getD (i + 1) 0)
              && !(bytes.getD i 0 == bytes.getD (i + 1) 0)) = true := by
            rw [Bool.and_eq_true] at hp
            simp only [Bool.and_eq_true, decide_eq_true_eq]
            exact ⟨⟨hi1, hp.1⟩, hp.2⟩
          rw [if_pos hcond]
          rw [drop_cons_getD hi, drop_cons_getD hi1, countLines_cons_cons,
            if_pos heol, if_pos hp]
        · have hcond : ¬ ((decide (i + 1 < bytes.length)
              && is_eol_char (bytes.getD (i + 1) 0)
              && !(bytes.getD i 0 == bytes.getD (i + 1) 0)) = true) := by
            intro h
            simp only [Bool.and_eq_true, decide_eq_true_eq] at h
            exact hp (Bool.and_eq_true .. |>.mpr ⟨h.1.2, h.2⟩)
          rw [if_neg hcond]
          rw [drop_cons_getD hi, drop_cons_getD hi1, countLines_cons_cons,
            if_pos heol, if_neg hp, ← drop_cons_getD hi1]
      · have hd1 : bytes.drop (i + 1) = [] := List.drop_eq_nil_of_le (by omega)
        have hp : eol_pair_skip bytes i = i := by
          rw [eol_pair_skip, if_neg]
          simp only [Bool.and_eq_true, decide_eq_true_eq, not_and]
          intro h
          omega
        rw [hp, drop_cons_getD hi, hd1]
        rfl

theorem scan_lines_length (bytes : List Nat) :
    ∀ (fuel i : Nat), bytes.length - i ≤ fuel →
      (scan_lines fuel bytes i).length = countLines (bytes.drop i) := by
  intro fuel
  induction fuel with
  | zero =>
    intro i hf
    rw [scan_lines, List.drop_eq_nil_of_le (by omega)]
    rfl
  | succ f ih =>
    intro i hf
    rw [scan_lines]
    by_cases hi : i < bytes.length
    · rw [if_pos hi, List.length_cons]
      have h1 := skip_non_eol_le bytes bytes.length i
      have h2 := eol_pair_skip_le bytes (skip_non_eol bytes.length bytes i)
      rw [ih _ (by omega)]
      rw [countLines_skip bytes bytes.length i (by omega) hi]
      omega
    · rw [if_neg hi, List.drop_eq_nil_of_le (by omega)]
      rfl

theorem scan_lines_mem_ge (bytes : List Nat) :
    ∀ (fuel i x : Nat), x ∈ scan_lines fuel bytes i → i ≤ x := by
  intro fuel
  induction fuel with
  | zero => intro i x hx; rw [scan_lines] at hx; exact absurd hx (List.not_mem_nil x)
  | succ f ih =>
    intro i x hx
    rw [scan_lines] at hx
    by_cases hi : i < bytes.length
    · rw [if_pos hi, List.mem_cons] at hx
      rcases hx with rfl | hx
      · exact Nat.le_refl x
      · have h1 := skip_non_eol_le bytes bytes.length i
        have h2 := eol_pair_skip_le bytes (skip_non_eol bytes.length bytes i)
        have := ih _ _ hx
        omega
    · rw [if_neg hi] at hx
      exact absurd hx (List.not_mem_nil x)

theorem scan_lines_mem_lt (bytes : List Nat) :
    ∀ (fuel i x : Nat), x ∈ scan_lines fuel bytes i → x < bytes.length := by
  intro fuel
  induction fuel with
  | zero => intro i x hx; rw [scan_lines] at hx; exact absurd hx (List.not_mem_nil x)
  | succ f ih =>
    intro i x hx
    rw [scan_lines] at hx
    by_cases hi : i < bytes.length
    · rw [if_pos hi, List.mem_cons] at hx
      rcases hx with rfl | hx
      · exact hi
      · exact ih _ _ hx
    · rw [if_neg hi] at hx
      exact absurd hx (List.not_mem_nil x)

theorem scan_lines_pairwise (bytes : List Nat) :
    ∀ (fuel i : Nat), (scan_lines fuel bytes i).Pairwise (· < ·) := by
  intro fuel
  induction fuel with
  | zero => intro i; rw [scan_lines]; exact List.Pairwise.nil
  | succ f ih =>
    intro i
    rw [scan_lines]
    by_cases hi : i < bytes.length
    · rw [if_pos hi]
      refine List.Pairwise.cons ?_ (ih _)
      intro x hx
      have h1 := skip_non_eol_le bytes bytes.length i
      have h2 := eol_pair_skip_le bytes (skip_non_eol bytes.length bytes i)
      have := scan_lines_mem_ge bytes f _ x hx
      omega
    · rw [if_neg hi]
      exact List.Pairwise.nil

theorem scan_lines_headD (bytes : List Nat) :
    ∀ (fuel i : Nat), bytes.length - i ≤ fuel →
      (scan_lines fuel bytes i).headD bytes.length =
        if i < bytes.length then i else bytes.length := by
  intro fuel i hf
  cases fuel with
  | zero =>
    rw [scan_lines, if_neg (by omega)]
    rfl
  | succ f =>
    rw [scan_lines]
    by_cases hi : i < bytes.length
    · rw [if_pos hi, if_pos hi]; rfl
    · rw [if_neg hi, if_neg hi]; rfl

theorem sliceJoin_scan (bytes : List Nat) :
    ∀ (fuel i : Nat), bytes.length - i ≤ fuel →
      sliceJoin bytes (scan_lines fuel bytes i) = bytes.drop i := by
  intro fuel
  induction fuel with
  | zero =>
    intro i hf
    rw [scan_lines, sliceJoin, List.drop_eq_nil_of_le (by omega)]
  | succ f ih =>
    intro i hf
    rw [scan_lines]
    by_cases hi : i < bytes.length
    · rw [if_pos hi, sliceJoin]
      have h1 := skip_non_eol_le bytes bytes.length i
      have h2 := eol_pair_skip_le bytes (skip_non_eol bytes.length bytes i)
      rw [scan_lines_headD bytes f _ (by omega)]
      rw [ih _ (by omega)]
      by_cases hn : eol_pair_skip bytes (skip_non_eol bytes.length bytes i) + 1
          < bytes.length
      · rw [if_pos hn, listSlice]
        have key := List.drop_take_append_drop bytes i
          (eol_pair_skip bytes (skip_non_eol bytes.length bytes i) + 1 - i)
        rw [show i + (eol_pair_skip bytes (skip_non_eol bytes.length bytes i) + 1 - i)
            = eol_pair_skip bytes (skip_non_eol bytes.length bytes i) + 1 from by omega] at key
        exact key
      · rw [if_neg hn, listSlice]
        have hnil : List.drop
            (eol_pair_skip bytes (skip_non_eol bytes.length bytes i) + 1) bytes = [] :=
          List.drop_eq_nil_of_le (by omega)
        rw [hnil, List.append_nil]
        exact List.take_of_length_le (by rw [List.length_drop])
    · rw [if_neg hi, sliceJoin, List.drop_eq_nil_of_le (by omega)]

theorem getD_zero_headD (l : List Nat) (d : Nat) : l.getD 0 d = l.headD d := by
  cases l <;> rfl

theorem joinWindows_eq_sliceJoin (bytes : List Nat) (L : List Nat) :
    ((List.range L.length).map
        (fun t => listSlice bytes (L.getD t bytes.length)
          (L.getD (t + 1) bytes.length))).flatten
      = sliceJoin bytes L := by
  induction L with
  | nil => rfl
  | cons a rest ih =>
    rw [List.length_cons, List.range_succ_eq_map, List.map_cons, List.map_map,
      List.flatten_cons]
    have hmap : ((fun t => listSlice bytes ((a :: rest).getD t bytes.length)
          ((a :: rest).getD (t + 1) bytes.length)) ∘ Nat.succ)
        = fun t => listSlice bytes (rest.getD t bytes.length)
          (rest.getD (t + 1) bytes.length) := by
      funext t
      simp only [Function.comp_apply, Nat.succ_eq_add_one, List.getD_cons_succ]
    rw [hmap, ih, sliceJoin]
    simp only [List.getD_cons_zero, List.getD_cons_succ, getD_zero_headD]

theorem getD_le_of_forall {L : List Nat} {len : Nat} (m : Nat)
    (hb : ∀ x ∈ L, x ≤ len) : L.getD m len ≤ len := by
  by_cases h : m < L.length
  · rw [List.getD_eq_getElem _ _ h]
    exact hb _ (List.getElem_mem h)
  · rw [List.getD_eq_default _ _ (by omega)]

theorem getD_mono_of_sorted {L : List Nat} {len : Nat}
    (hs : L.Pairwise (· < ·)) (hb : ∀ x ∈ L, x ≤ len) {j k : Nat} (hjk : j ≤ k) :
    L.getD j len ≤ L.getD k len := by
  by_cases hk : k < L.length
  · have hj : j < L.length := by omega
    rw [List.getD_eq_getElem _ _ hj, List.getD_eq_getElem _ _ hk]
    rcases Nat.eq_or_lt_of_le hjk with rfl | hlt
    · exact Nat.le_refl _
    · exact Nat.le_of_lt (List.pairwise_iff_getElem.mp hs j k hj hk hlt)
  · have hd : L.getD k len = len := List.getD_eq_default _ _ (by omega)
    rw [hd]
    exact getD_le_of_forall j hb

/-! ## Lemmas: the cache -/

theorem CommitShowValue.new_key (key : CommitShowKey) (output : List Nat) :
    (CommitShowValue.new key output).key = key := rfl

theorem insert_document_lookup_self (c : CommitShowCache) (v : CommitShowValue) :
    alookup (c.insert_document v).commit_document v.key = some v := by
  rw [CommitShowCache.insert_document]
  cases h : alookup c.old_commits v.key.id.change_id with
  | none => rw [alookup_ainsert, if_pos rfl]
  | some old_key => rw [alookup_ainsert, if_pos rfl]

theorem insert_document_has_self (c : CommitShowCache) (v : CommitShowValue) :
    (c.insert_document v).has_exact_match v.key = true := by
  rw [CommitShowCache.has_exact_match, insert_document_lookup_self]
  rfl

theorem get_or_insert_fst_has (c : CommitShowCache) (key : CommitShowKey)
    (f : Unit → CommitShowValue) (hk : (f ()).key = key) :
    ((c.get_or_insert key f).1).has_exact_match key = true := by
  rw [CommitShowCache.get_or_insert]
  by_cases h : c.has_exact_match key
  · simp [h]
  · have h2 : c.has_exact_match key = false := by
      cases hx : c.has_exact_match key
      · rfl
      · exact absurd hx h
    simp only [h2, Bool.false_eq_true, if_false]
    rw [← hk]
    exact insert_document_has_self c (f ())

theorem apply_getOrInsert_has (c : CommitShowCache) (key : CommitShowKey)
    (output : List Nat) :
    (CacheOp.apply c (CacheOp.getOrInsert key output)).has_exact_match key = true := by
  rw [CacheOp.apply]
  exact get_or_insert_fst_has c key _ rfl

theorem set_active_store (c : CommitShowCache) (heads : List Head)
    (tmpl : CommitShowKey) :
    (c.set_active heads tmpl).commit_document = c.commit_document := rfl

theorem insert_document_frame (c : CommitShowCache) (v : CommitShowValue)
    (k : CommitShowKey)
    (hbefore : (alookup c.commit_document k).isSome = true)
    (hafter : (alookup (c.insert_document v).commit_document k).isSome = false) :
    alookup c.old_commits v.key.id.change_id = some k := by
  rw [CommitShowCache.insert_document] at hafter
  cases h : alookup c.old_commits v.key.id.change_id with
  | none =>
    rw [h] at hafter
    simp only [alookup_ainsert] at hafter
    by_cases hkv : k = v.key
    · rw [if_pos hkv] at hafter
      exact absurd hafter (by simp)
    · rw [if_neg hkv] at hafter
      rw [hbefore] at hafter
      exact absurd hafter (by simp)
  | some old_key =>
    rw [h] at hafter
    simp only [alookup_ainsert, alookup_aerase] at hafter
    by_cases hkv : k = v.key
    · rw [if_pos hkv] at hafter
      exact absurd hafter (by simp)
    · rw [if_neg hkv] at hafter
      by_cases hko : k = old_key
      · rw [hko]
      · rw [if_neg hko, hbefore] at hafter
        exact absurd hafter (by simp)

theorem foldl_preserve {α β : Type} (P : β → Prop) (f : β → α → β)
    (hstep : ∀ b a, P b → P (f b a)) :
    ∀ (l : List α) (b : β), P b → P (l.foldl f b) := by
  intro l
  induction l with
  | nil => intro b hb; exact hb
  | cons a rest ih =>
    intro b hb
    rw [List.foldl_cons]
    exact ih _ (hstep b a hb)

theorem old_fold_disjoint (active : List (ChangeId × List CommitShowKey))
    (keys : List CommitShowKey) (cid : ChangeId) :
    ∀ (m : List (ChangeId × CommitShowKey)),
      ((alookup m cid).isSome = true → alookup active cid = none) →
      (alookup (keys.foldl
          (fun m k =>
            if (alookup active k.id.change_id).isSome then m
            else ainsert m k.id.change_id k) m) cid).isSome = true →
        alookup active cid = none := by
  induction keys with
  | nil => intro m hm; exact hm
  | cons k rest ih =>
    intro m hm
    rw [List.foldl_cons]
    apply ih
    by_cases hc : (alookup active k.id.change_id).isSome = true
    · rw [if_pos hc]
      exact hm
    · rw [if_neg hc]
      intro hsome
      rw [alookup_ainsert] at hsome
      by_cases hck : cid = k.id.change_id
      · subst hck
        cases hx : alookup active k.id.change_id with
        | none => rfl
        | some s => exact absurd (by rw [hx]; rfl) hc
      · rw [if_neg hck] at hsome
        exact hm hsome

theorem set_active_disjoint (c : CommitShowCache) (heads : List Head)
    (tmpl : CommitShowKey) : ActiveOldDisjoint (c.set_active heads tmpl) := by
  intro cid
  exact old_fold_disjoint _ _ cid []
    (fun h => absurd h (by simp [alookup]))

theorem insert_document_disjoint (c : CommitShowCache) (v : CommitShowValue)
    (hd : ActiveOldDisjoint c) : ActiveOldDisjoint (c.insert_document v) := by
  rw [CommitShowCache.insert_document]
  cases h : alookup c.old_commits v.key.id.change_id with
  | none => exact hd
  | some old_key =>
    intro cid hsome
    rw [alookup_aerase] at hsome
    by_cases hck : cid = v.key.id.change_id
    · rw [if_pos hck] at hsome
      exact absurd hsome (by simp)
    · rw [if_neg hck] at hsome
      exact hd cid hsome

theorem apply_disjoint (c : CommitShowCache) (op : CacheOp)
    (hd : ActiveOldDisjoint c) : ActiveOldDisjoint (CacheOp.apply c op) := by
  cases op with
  | setActive heads tmpl => exact set_active_disjoint c heads tmpl
  | doGet key => exact hd
  | insertDoc v => exact insert_document_disjoint c v hd
  | getOrInsert key output =>
    rw [CacheOp.apply, CommitShowCache.get_or_insert]
    by_cases h : c.has_exact_match key
    · simp only [h, if_true]
      exact hd
    · simp only [h, if_false]
      exact insert_document_disjoint c _ hd

theorem runOps_disjoint (ops : List CacheOp) :
    ActiveOldDisjoint (runOps CommitShowCache.new ops) := by
  rw [runOps]
  refine foldl_preserve ActiveOldDisjoint _ apply_disjoint _ _ ?_
  intro cid hsome
  exact absurd hsome (by rw [CommitShowCache.new, alookup]; simp)

theorem runOps_take_succ (c0 : CommitShowCache) (ops : List CacheOp) (t : Nat)
    (op : CacheOp) (h : ops[t]? = some op) :
    runOps c0 (ops.take (t + 1)) = CacheOp.apply (runOps c0 (ops.take t)) op := by
  rw [runOps, runOps, List.take_succ, h, List.foldl_append]
  rfl

theorem bool_crossing (f : Nat → Bool) :
    ∀ (b a : Nat), a ≤ b → f a = true → f b = false →
      ∃ m, a ≤ m ∧ m < b ∧ f m = true ∧ f (m + 1) = false := by
  intro b
  induction b with
  | zero =>
    intro a hab ha hb
    have : a = 0 := by omega
    rw [this] at ha
    rw [ha] at hb
    exact absurd hb (by simp)
  | succ n ih =>
    intro a hab ha hb
    by_cases han : a = n + 1
    · rw [han] at ha
      rw [ha] at hb
      exact absurd hb (by simp)
    · have han2 : a ≤ n := by omega
      cases hn : f n with
      | true =>
        exact ⟨n, han2, Nat.lt_succ_self n, hn, hb⟩
      | false =>
        obtain ⟨m, h1, h2, h3, h4⟩ := ih a han2 ha hn
        exact ⟨m, h1, Nat.lt_succ_of_lt h2, h3, h4⟩

/-! ## Claim theorems -/

/-- C4, counterexample to the claim as stated: the input "a" (one byte,
no line terminator, so k = 0 under the rule of the claim) yields
lines() = 1, not 0, and the concatenation of render(i,1) over [0, k) is
empty, not the content; moreover for the input "a\n\r" (k = 2 under the
rule of the claim, which reads the backward pair \n\r as two
terminators) the scanner folds the distinct-byte pair and yields
lines() = 1, not 2. -/
theorem c4_counterexample :
    (LargeString.new [97]).lines = 1 ∧
    ((List.range 0).map (fun i => (LargeString.new [97]).render_window i 1)).flatten
      ≠ [97] ∧
    (LargeString.new [97, 10, 13]).lines = 1 := by
  refine ⟨by decide, ?_, by decide⟩
  decide

/-- C4 (amended): for every content, lines() equals the number of lines
of the content, where a line is a run of non-EOL bytes closed by a
terminator (one EOL byte, or two adjacent distinct EOL bytes treated as
one) or by end of content, a final unterminated run counting as one
line; and concatenating the byte windows selected by render(i,1) for i
in [0, lines()) reconstructs the content exactly. -/
theorem c4_line_index_roundtrip (content : List Nat) :
    (LargeString.new content).lines = countLines content ∧
    ((List.range (LargeString.new content).lines).map
        (fun i => (LargeString.new content).render_window i 1)).flatten = content := by
  constructor
  · show (scan_lines content.length content 0).length = countLines content
    have h := scan_lines_length content content.length 0 (by omega)
    rw [List.drop_zero] at h
    exact h
  · show ((List.range (scan_lines content.length content 0).length).map
        (fun i => listSlice content
          ((scan_lines content.length content 0).getD i content.length)
          ((scan_lines content.length content 0).getD (i + 1) content.length))).flatten
      = content
    rw [joinWindows_eq_sliceJoin]
    have h := sliceJoin_scan content content.length 0 (by omega)
    rw [List.drop_zero] at h
    exact h

/-- C8, counterexample to the claim as stated: render is not total over
all arguments, because the index sum `top_line + line_count` is a usize
addition.  At top_line = usize::MAX and n = 1 the sum overflows: a debug
build panics at the addition, and under release wrapping semantics the
sum wraps to 0, so on the one-byte content "a" the selected range runs
from offset 1 (line index usize::MAX is out of range, end-of-content)
back to offset 0 (line 0 starts at byte 0); the slice precondition
fails and the slice panics instead of returning a window. -/
theorem c8_counterexample :
    usize_add (USIZE_MOD - 1) 1 = 0 ∧
    (LargeString.new [97]).render_window_checked (USIZE_MOD - 1) 1 = none := by
  refine ⟨by decide, by decide⟩

/-- C8 (amended): for every content and all window arguments whose sum
does not overflow usize, render does not fault: the selected byte range
is well formed (start offset at most end offset, end offset at most the
content length), the usize-checked window selection succeeds and returns
exactly the ideal window (no panic), a top line at or beyond the line
count yields the empty window, and a window reaching beyond the line
count is clamped to end-of-content, returning exactly the available
trailing bytes. -/
theorem c8_render_window_clamp (content : List Nat) (top n : Nat)
    (hno : top + n < USIZE_MOD) :
    ((LargeString.new content).get_line_start top ≤
        (LargeString.new content).get_line_start (top + n) ∧
      (LargeString.new content).get_line_start (top + n) ≤ content.length) ∧
    (LargeString.new content).render_window_checked top n
      = some ((LargeString.new content).render_window top n) ∧
    ((LargeString.new content).lines ≤ top →
      (LargeString.new content).render_window top n = []) ∧
    ((LargeString.new content).lines ≤ top + n →
      (LargeString.new content).render_window top n =
        content.drop ((LargeString.new content).get_line_start top)) := by
  have hb : ∀ x ∈ scan_lines content.length content 0, x ≤ content.length :=
    fun x hx => Nat.le_of_lt (scan_lines_mem_lt content content.length 0 x hx)
  have hs : (scan_lines content.length content 0).Pairwise (· < ·) :=
    scan_lines_pairwise content content.length 0
  have hmono : (LargeString.new content).get_line_start top ≤
      (LargeString.new content).get_line_start (top + n) :=
    getD_mono_of_sorted hs hb (Nat.le_add_right top n)
  have hend : (LargeString.new content).get_line_start (top + n)
      ≤ content.length := getD_le_of_forall (top + n) hb
  refine ⟨⟨hmono, hend⟩, ?_, ?_, ?_⟩
  · show (if (LargeString.new content).get_line_start top ≤
          (LargeString.new content).get_line_start (usize_add top n) ∧
          (LargeString.new content).get_line_start (usize_add top n) ≤
            (LargeString.new content).content.length
        then some (listSlice (LargeString.new content).content
          ((LargeString.new content).get_line_start top)
          ((LargeString.new content).get_line_start (usize_add top n)))
        else none)
      = some ((LargeString.new content).render_window top n)
    have hadd : usize_add top n = top + n := Nat.mod_eq_of_lt hno
    rw [hadd, if_pos ⟨hmono, hend⟩]
    rfl
  · intro hlin
    show listSlice content
        ((scan_lines content.length content 0).getD top content.length)
        ((scan_lines content.length content 0).getD (top + n) content.length) = []
    have h1 : (scan_lines content.length content 0).getD top content.length
        = content.length := List.getD_eq_default _ _ hlin
    have h2 : (scan_lines content.length content 0).getD (top + n) content.length
        = content.length :=
      List.getD_eq_default _ _ (Nat.le_trans hlin (Nat.le_add_right top n))
    rw [listSlice, h1, h2, Nat.sub_self, List.take_zero]
  · intro hlin
    show listSlice content
        ((scan_lines content.length content 0).getD top content.length)
        ((scan_lines content.length content 0).getD (top + n) content.length)
      = content.drop ((scan_lines content.length content 0).getD top content.length)
    have h2 : (scan_lines content.length content 0).getD (top + n) content.length
        = content.length := List.getD_eq_default _ _ hlin
    rw [listSlice, h2]
    exact List.take_of_length_le (by rw [List.length_drop])

/-- C8 witness at a concrete input: content "a\nb" has two lines; the
checked selection succeeds, a window starting past the line count is
empty, and a window reaching past the line count returns the trailing
bytes. -/
theorem c8_witness :
    (LargeString.new [97, 10, 98]).render_window_checked 5 1
      = some ((LargeString.new [97, 10, 98]).render_window 5 1) ∧
    (LargeString.new [97, 10, 98]).render_window 5 1 = [] ∧
    (LargeString.new [97, 10, 98]).render_window 1 5 =
      List.drop ((LargeString.new [97, 10, 98]).get_line_start 1) [97, 10, 98] :=
  ⟨(c8_render_window_clamp [97, 10, 98] 5 1 (by decide)).2.1,
   (c8_render_window_clamp [97, 10, 98] 5 1 (by decide)).2.2.1 (by decide),
   (c8_render_window_clamp [97, 10, 98] 1 5 (by decide)).2.2.2 (by decide)⟩

/-- C9: the decode step of render never propagates a failure: when the
decoder rejects the selected window, render returns the plain-text
rendering of the decode error, and when the decoder succeeds, render
returns the decoded text; in both cases render returns normally. -/
theorem c9_decode_failure_safety {α : Type} (decode : List Nat → Except String α)
    (fromText : String → α) (content : List Nat) (top n : Nat) :
    (∀ e, decode ((LargeString.new content).render_window top n) = Except.error e →
      LargeString.render decode fromText (LargeString.new content) top n = fromText e) ∧
    (∀ t, decode ((LargeString.new content).render_window top n) = Except.ok t →
      LargeString.render decode fromText (LargeString.new content) top n = t) := by
  constructor
  · intro e he
    simp only [LargeString.render, he]
  · intro t ht
    simp only [LargeString.render, ht]

/-- C9 witness: a decoder rejecting every window makes render return the
error text itself. -/
theorem c9_witness :
    LargeString.render (fun _ => Except.error "bad") (fun s => s)
      (LargeString.new [97]) 0 1 = "bad" :=
  (c9_decode_failure_safety (fun _ => Except.error "bad") (fun s => s) [97] 0 1).1
    "bad" rfl

/-- C1, evaluation at the failing input: start from an empty cache, make
head (1,7) active, insert a value under its key K1, then call set_active
with the head list [(2,7)] (same change 7, new head).  The claim (and the
doc comments of the source) expect get on the new-head key K2 to return
the K1 value, and a later insert of a K2 value to evict K1; the code
instead returns not-found for K2 (first conjunct) and keeps K1 in the
store after the K2 insert (second and third conjuncts), because
set_active records a stored key as old only when its change id is absent
from the active map, and change 7 is still active under the new head. -/
theorem c1_stale_fallback_bug_eval :
    ((((CommitShowCache.new.set_active [⟨1, 7⟩] ⟨⟨1, 7⟩, DiffFormat.Git, 0⟩).insert_document
        (CommitShowValue.new ⟨⟨1, 7⟩, DiffFormat.Git, 0⟩ [97])).set_active [⟨2, 7⟩]
        ⟨⟨1, 7⟩, DiffFormat.Git, 0⟩).get ⟨⟨2, 7⟩, DiffFormat.Git, 0⟩).isSome = false ∧
    (((((CommitShowCache.new.set_active [⟨1, 7⟩] ⟨⟨1, 7⟩, DiffFormat.Git, 0⟩).insert_document
        (CommitShowValue.new ⟨⟨1, 7⟩, DiffFormat.Git, 0⟩ [97])).set_active [⟨2, 7⟩]
        ⟨⟨1, 7⟩, DiffFormat.Git, 0⟩).insert_document
        (CommitShowValue.new ⟨⟨2, 7⟩, DiffFormat.Git, 0⟩ [98])).has_exact_match
        ⟨⟨1, 7⟩, DiffFormat.Git, 0⟩) = true ∧
    (((((CommitShowCache.new.set_active [⟨1, 7⟩] ⟨⟨1, 7⟩, DiffFormat.Git, 0⟩).insert_document
        (CommitShowValue.new ⟨⟨1, 7⟩, DiffFormat.Git, 0⟩ [97])).set_active [⟨2, 7⟩]
        ⟨⟨1, 7⟩, DiffFormat.Git, 0⟩).insert_document
        (CommitShowValue.new ⟨⟨2, 7⟩, DiffFormat.Git, 0⟩ [98])).get
        ⟨⟨1, 7⟩, DiffFormat.Git, 0⟩).isSome = true := by
  refine ⟨by decide, by decide, by decide⟩

/-- C2, counterexample to the claim as stated: insert a value into a
fresh cache without any set_active call; its key is in the store yet
belongs to no active set and to no stale entry, so it belongs to neither
of the two classes the claim allows. -/
theorem c2_counterexample :
    (alookup (runOps CommitShowCache.new
        [CacheOp.insertDoc (CommitShowValue.new ⟨⟨1, 7⟩, DiffFormat.Git, 0⟩ [97])]).commit_document
      ⟨⟨1, 7⟩, DiffFormat.Git, 0⟩).isSome = true ∧
    alookup (runOps CommitShowCache.new
        [CacheOp.insertDoc (CommitShowValue.new ⟨⟨1, 7⟩, DiffFormat.Git, 0⟩ [97])]).active_commits
      (7 : ChangeId) = none ∧
    alookup (runOps CommitShowCache.new
        [CacheOp.insertDoc (CommitShowValue.new ⟨⟨1, 7⟩, DiffFormat.Git, 0⟩ [97])]).old_commits
      (7 : ChangeId) = none := by
  refine ⟨by decide, by decide, by decide⟩

/-- C2 (amended): after every sequence of cache operations starting from
an empty cache, no key in the store belongs to both an active set for
its change identity and the stale entry for its change identity; a
stored key may however belong to neither. -/
theorem c2_store_key_never_active_and_stale (ops : List CacheOp)
    (k : CommitShowKey)
    (_hstore : (alookup (runOps CommitShowCache.new ops).commit_document k).isSome
      = true) :
    ¬ ((∃ s, alookup (runOps CommitShowCache.new ops).active_commits
          k.id.change_id = some s ∧ k ∈ s) ∧
        alookup (runOps CommitShowCache.new ops).old_commits k.id.change_id
          = some k) := by
  rintro ⟨⟨s, hs, _⟩, hold⟩
  have hdisj := runOps_disjoint ops k.id.change_id (by rw [hold]; rfl)
  rw [hs] at hdisj
  exact Option.noConfusion hdisj

/-- C2 witness: a concrete trace (activate head (1,7), insert a value
for it) whose stored key is shown never to be both active and stale. -/
theorem c2_witness :
    (alookup (runOps CommitShowCache.new
        [CacheOp.setActive [⟨1, 7⟩] ⟨⟨1, 7⟩, DiffFormat.Git, 0⟩,
         CacheOp.insertDoc
           (CommitShowValue.new ⟨⟨1, 7⟩, DiffFormat.Git, 0⟩ [97])]).commit_document
      ⟨⟨1, 7⟩, DiffFormat.Git, 0⟩).isSome = true ∧
    ¬ ((∃ s, alookup (runOps CommitShowCache.new
          [CacheOp.setActive [⟨1, 7⟩] ⟨⟨1, 7⟩, DiffFormat.Git, 0⟩,
           CacheOp.insertDoc
             (CommitShowValue.new ⟨⟨1, 7⟩, DiffFormat.Git, 0⟩ [97])]).active_commits
          (⟨⟨1, 7⟩, DiffFormat.Git, 0⟩ : CommitShowKey).id.change_id = some s ∧
          (⟨⟨1, 7⟩, DiffFormat.Git, 0⟩ : CommitShowKey) ∈ s) ∧
        alookup (runOps CommitShowCache.new
          [CacheOp.setActive [⟨1, 7⟩] ⟨⟨1, 7⟩, DiffFormat.Git, 0⟩,
           CacheOp.insertDoc
             (CommitShowValue.new ⟨⟨1, 7⟩, DiffFormat.Git, 0⟩ [97])]).old_commits
          (⟨⟨1, 7⟩, DiffFormat.Git, 0⟩ : CommitShowKey).id.change_id
          = some ⟨⟨1, 7⟩, DiffFormat.Git, 0⟩) :=
  ⟨by decide,
   c2_store_key_never_active_and_stale
     [CacheOp.setActive [⟨1, 7⟩] ⟨⟨1, 7⟩, DiffFormat.Git, 0⟩,
      CacheOp.insertDoc (CommitShowValue.new ⟨⟨1, 7⟩, DiffFormat.Git, 0⟩ [97])]
     ⟨⟨1, 7⟩, DiffFormat.Git, 0⟩ (by decide)⟩

/-- C3, counterexample to the claim as stated: in the trace
[get_or_insert K1, set_active with no heads, get_or_insert K2 (same
change as K1), get_or_insert K1], the first and the fourth operation
carry the same key K1 and both run their compute closure: the K2 insert
evicted the stale K1 entry in between. -/
theorem c3_counterexample :
    invokedAt CommitShowCache.new
      [CacheOp.getOrInsert ⟨⟨1, 7⟩, DiffFormat.Git, 0⟩ [97],
       CacheOp.setActive [] ⟨⟨1, 7⟩, DiffFormat.Git, 0⟩,
       CacheOp.getOrInsert ⟨⟨2, 7⟩, DiffFormat.Git, 0⟩ [98],
       CacheOp.getOrInsert ⟨⟨1, 7⟩, DiffFormat.Git, 0⟩ [97]] 0 = true ∧
    invokedAt CommitShowCache.new
      [CacheOp.getOrInsert ⟨⟨1, 7⟩, DiffFormat.Git, 0⟩ [97],
       CacheOp.setActive [] ⟨⟨1, 7⟩, DiffFormat.Git, 0⟩,
       CacheOp.getOrInsert ⟨⟨2, 7⟩, DiffFormat.Git, 0⟩ [98],
       CacheOp.getOrInsert ⟨⟨1, 7⟩, DiffFormat.Git, 0⟩ [97]] 3 = true :=
  ⟨by decide, by decide⟩

/-- C3 (amended): the compute closure runs at most once per key between
evictions: whenever two get_or_insert operations of one trace carry the
same key and both run their compute closure, the key was removed from
the store at some point strictly between the two operations. -/
theorem c3_compute_once_unless_evicted (ops : List CacheOp) (i j : Nat)
    (key : CommitShowKey) (w1 w2 : List Nat)
    (hij : i < j)
    (hopi : ops[i]? = some (CacheOp.getOrInsert key w1))
    (hopj : ops[j]? = some (CacheOp.getOrInsert key w2))
    (_hinvi : invokedAt CommitShowCache.new ops i = true)
    (hinvj : invokedAt CommitShowCache.new ops j = true) :
    ∃ m, i < m ∧ m < j ∧
      (runOps CommitShowCache.new (ops.take m)).has_exact_match key = true ∧
      (runOps CommitShowCache.new (ops.take (m + 1))).has_exact_match key
        = false := by
  have hstep : runOps CommitShowCache.new (ops.take (i + 1))
      = CacheOp.apply (runOps CommitShowCache.new (ops.take i))
        (CacheOp.getOrInsert key w1) := runOps_take_succ _ ops i _ hopi
  have htrue : (runOps CommitShowCache.new (ops.take (i + 1))).has_exact_match key
      = true := by
    rw [hstep]
    exact apply_getOrInsert_has _ key w1
  have hfalse : (runOps CommitShowCache.new (ops.take j)).has_exact_match key
      = false := by
    simp only [invokedAt, hopj, CacheOp.invokesCompute, computeInvoked] at hinvj
    exact Bool.not_eq_true' .. |>.mp hinvj
  obtain ⟨m, h1, h2, h3, h4⟩ := bool_crossing
    (fun t => (runOps CommitShowCache.new (ops.take t)).has_exact_match key)
    j (i + 1) (by omega) htrue hfalse
  exact ⟨m, by omega, h2, h3, h4⟩

/-- C3 witness: the theorem applied to the concrete four-operation trace
of the counterexample, locating the eviction between the two invoking
operations. -/
theorem c3_witness :
    ∃ m, 0 < m ∧ m < 3 ∧
      (runOps CommitShowCache.new
          ([CacheOp.getOrInsert ⟨⟨1, 7⟩, DiffFormat.Git, 0⟩ [97],
            CacheOp.setActive [] ⟨⟨1, 7⟩, DiffFormat.Git, 0⟩,
            CacheOp.getOrInsert ⟨⟨2, 7⟩, DiffFormat.Git, 0⟩ [98],
            CacheOp.getOrInsert ⟨⟨1, 7⟩, DiffFormat.Git, 0⟩ [97]].take m)).has_exact_match
        ⟨⟨1, 7⟩, DiffFormat.Git, 0⟩ = true ∧
      (runOps CommitShowCache.new
          ([CacheOp.getOrInsert ⟨⟨1, 7⟩, DiffFormat.Git, 0⟩ [97],
            CacheOp.setActive [] ⟨⟨1, 7⟩, DiffFormat.Git, 0⟩,
            CacheOp.getOrInsert ⟨⟨2, 7⟩, DiffFormat.Git, 0⟩ [98],
            CacheOp.getOrInsert ⟨⟨1, 7⟩, DiffFormat.Git, 0⟩ [97]].take (m + 1))).has_exact_match
        ⟨⟨1, 7⟩, DiffFormat.Git, 0⟩ = false :=
  c3_compute_once_unless_evicted
    [CacheOp.getOrInsert ⟨⟨1, 7⟩, DiffFormat.Git, 0⟩ [97],
     CacheOp.setActive [] ⟨⟨1, 7⟩, DiffFormat.Git, 0⟩,
     CacheOp.getOrInsert ⟨⟨2, 7⟩, DiffFormat.Git, 0⟩ [98],
     CacheOp.getOrInsert ⟨⟨1, 7⟩, DiffFormat.Git, 0⟩ [97]]
    0 3 ⟨⟨1, 7⟩, DiffFormat.Git, 0⟩ [97] [97]
    (by decide) (by decide) (by decide) (by decide) (by decide)

/-- C5: keys built by CommitShowKey::new with the same commit identity
and the same non-DiffTool format coincide for every pair of widths, and
keys built with a DiffTool format and distinct widths are distinct. -/
theorem c5_width_normalization :
    (∀ (id : Head) (format : DiffFormat) (w1 w2 : Nat),
      (∀ t, format ≠ DiffFormat.DiffTool t) →
      CommitShowKey.new id format w1 = CommitShowKey.new id format w2) ∧
    (∀ (id : Head) (t : Option String) (w1 w2 : Nat), w1 ≠ w2 →
      CommitShowKey.new id (DiffFormat.DiffTool t) w1 ≠
        CommitShowKey.new id (DiffFormat.DiffTool t) w2) := by
  constructor
  · intro id format w1 w2 hnt
    cases format with
    | ColorWords => rfl
    | Git => rfl
    | DiffTool t => exact absurd rfl (hnt t)
    | Summary => rfl
    | Stat => rfl
  · intro id t w1 w2 hne heq
    exact hne (congrArg CommitShowKey.width heq)

/-- C5 witness: a Git-format key ignores the width, a DiffTool-format
key keeps it. -/
theorem c5_witness :
    CommitShowKey.new ⟨1, 7⟩ DiffFormat.Git 3 =
      CommitShowKey.new ⟨1, 7⟩ DiffFormat.Git 9 ∧
    CommitShowKey.new ⟨1, 7⟩ (DiffFormat.DiffTool none) 3 ≠
      CommitShowKey.new ⟨1, 7⟩ (DiffFormat.DiffTool none) 9 :=
  ⟨c5_width_normalization.1 ⟨1, 7⟩ DiffFormat.Git 3 9
      (fun t h => DiffFormat.noConfusion h),
   c5_width_normalization.2 ⟨1, 7⟩ none 3 9 (by decide)⟩

/-- C6, counterexample to the claim as stated: in a cache that already
holds the key, two consecutive get_or_insert calls invoke no compute
closure at all rather than exactly one. -/
theorem c6_counterexample :
    computeInvoked
      (CommitShowCache.new.insert_document
        (CommitShowValue.new ⟨⟨1, 7⟩, DiffFormat.Git, 0⟩ [97]))
      ⟨⟨1, 7⟩, DiffFormat.Git, 0⟩ = false ∧
    computeInvoked
      ((CommitShowCache.new.insert_document
          (CommitShowValue.new ⟨⟨1, 7⟩, DiffFormat.Git, 0⟩ [97])).get_or_insert
        ⟨⟨1, 7⟩, DiffFormat.Git, 0⟩
        (fun _ => CommitShowValue.new ⟨⟨1, 7⟩, DiffFormat.Git, 0⟩ [99])).1
      ⟨⟨1, 7⟩, DiffFormat.Git, 0⟩ = false :=
  ⟨by decide, by decide⟩

/-- C6 (amended): for every cache state in which the key is a miss, two
consecutive get_or_insert calls with that key invoke a compute closure
exactly once, namely the closure of the first call, the first call
returns (and stores) the computed value, and the second call returns the
value the first call stored. -/
theorem c6_idempotent_miss (c : CommitShowCache) (key : CommitShowKey)
    (f1 f2 : Unit → CommitShowValue)
    (hmiss : c.has_exact_match key = false) (hkey : (f1 ()).key = key) :
    computeInvoked c key = true ∧
    computeInvoked (c.get_or_insert key f1).1 key = false ∧
    (c.get_or_insert key f1).2 = some (f1 ()) ∧
    ((c.get_or_insert key f1).1.get_or_insert key f2).2
      = (c.get_or_insert key f1).2 := by
  have hfst : (c.get_or_insert key f1).1 = c.insert_document (f1 ()) := by
    show (if c.has_exact_match key then c else c.insert_document (f1 ()))
      = c.insert_document (f1 ())
    rw [hmiss]
    simp
  have hhas : ((c.get_or_insert key f1).1).has_exact_match key = true := by
    rw [hfst, ← hkey]
    exact insert_document_has_self c (f1 ())
  have hlook : alookup ((c.get_or_insert key f1).1).commit_document key
      = some (f1 ()) := by
    rw [hfst, ← hkey]
    exact insert_document_lookup_self c (f1 ())
  have hsnd : (c.get_or_insert key f1).2 = ((c.get_or_insert key f1).1).get key :=
    rfl
  refine ⟨?_, ?_, ?_, ?_⟩
  · rw [computeInvoked, hmiss]
    rfl
  · rw [computeInvoked, hhas]
    rfl
  · rw [hsnd, CommitShowCache.get, if_pos hhas]
    exact hlook
  · show ((if ((c.get_or_insert key f1).1).has_exact_match key
        then (c.get_or_insert key f1).1
        else ((c.get_or_insert key f1).1).insert_document (f2 ())).get key)
      = (c.get_or_insert key f1).2
    rw [hhas, hsnd]
    simp

/-- C6 witness: the amended theorem applied to the empty cache and a
concrete key. -/
theorem c6_witness :
    computeInvoked CommitShowCache.new ⟨⟨1, 7⟩, DiffFormat.Git, 0⟩ = true ∧
    computeInvoked
      (CommitShowCache.new.get_or_insert ⟨⟨1, 7⟩, DiffFormat.Git, 0⟩
        (fun _ => CommitShowValue.new ⟨⟨1, 7⟩, DiffFormat.Git, 0⟩ [97])).1
      ⟨⟨1, 7⟩, DiffFormat.Git, 0⟩ = false ∧
    (CommitShowCache.new.get_or_insert ⟨⟨1, 7⟩, DiffFormat.Git, 0⟩
        (fun _ => CommitShowValue.new ⟨⟨1, 7⟩, DiffFormat.Git, 0⟩ [97])).2
      = some (CommitShowValue.new ⟨⟨1, 7⟩, DiffFormat.Git, 0⟩ [97]) ∧
    ((CommitShowCache.new.get_or_insert ⟨⟨1, 7⟩, DiffFormat.Git, 0⟩
        (fun _ => CommitShowValue.new ⟨⟨1, 7⟩, DiffFormat.Git, 0⟩ [97])).1.get_or_insert
      ⟨⟨1, 7⟩, DiffFormat.Git, 0⟩
      (fun _ => CommitShowValue.new ⟨⟨1, 7⟩, DiffFormat.Git, 0⟩ [99])).2
      = (CommitShowCache.new.get_or_insert ⟨⟨1, 7⟩, DiffFormat.Git, 0⟩
        (fun _ => CommitShowValue.new ⟨⟨1, 7⟩, DiffFormat.Git, 0⟩ [97])).2 :=
  c6_idempotent_miss CommitShowCache.new ⟨⟨1, 7⟩, DiffFormat.Git, 0⟩
    (fun _ => CommitShowValue.new ⟨⟨1, 7⟩, DiffFormat.Git, 0⟩ [97])
    (fun _ => CommitShowValue.new ⟨⟨1, 7⟩, DiffFormat.Git, 0⟩ [99])
    (by decide) rfl

/-- C7: set_active never touches the store, and an operation removes a
stored key only when the operation inserts a value (insert_document
directly, or get_or_insert on a miss) and the removed key is exactly the
stale entry recorded for the change identity of the inserted value. -/
theorem c7_store_frame :
    (∀ (c : CommitShowCache) (heads : List Head) (tmpl : CommitShowKey),
      (c.set_active heads tmpl).commit_document = c.commit_document) ∧
    (∀ (c : CommitShowCache) (op : CacheOp) (k : CommitShowKey),
      (alookup c.commit_document k).isSome = true →
      (alookup (CacheOp.apply c op).commit_document k).isSome = false →
      ∃ cid, opInsertChange op = some cid ∧ alookup c.old_commits cid = some k) := by
  constructor
  · intro c heads tmpl
    rfl
  · intro c op k hb ha
    cases op with
    | setActive heads tmpl =>
      rw [CacheOp.apply, set_active_store, hb] at ha
      exact absurd ha (by simp)
    | doGet key =>
      rw [CacheOp.apply, hb] at ha
      exact absurd ha (by simp)
    | insertDoc v =>
      rw [CacheOp.apply] at ha
      exact ⟨v.key.id.change_id, rfl, insert_document_frame c v k hb ha⟩
    | getOrInsert key output =>
      by_cases h : c.has_exact_match key = true
      · have happ : CacheOp.apply c (CacheOp.getOrInsert key output) = c := by
          show (if c.has_exact_match key then c
            else c.insert_document (CommitShowValue.new key output)) = c
          rw [h]
          simp
        rw [happ, hb] at ha
        exact absurd ha (by simp)
      · have hfalse : c.has_exact_match key = false := by
          cases hx : c.has_exact_match key
          · rfl
          · exact absurd hx h
        have happ : CacheOp.apply c (CacheOp.getOrInsert key output)
            = c.insert_document (CommitShowValue.new key output) := by
          show (if c.has_exact_match key then c
            else c.insert_document (CommitShowValue.new key output))
            = c.insert_document (CommitShowValue.new key output)
          rw [hfalse]
          simp
        rw [happ] at ha
        exact ⟨key.id.change_id, rfl,
          insert_document_frame c (CommitShowValue.new key output) k hb ha⟩

/-- C7 witness: a state whose change 7 has stale key K1; inserting a
fresh value for change 7 removes exactly K1 from the store. -/
theorem c7_witness :
    ∃ cid, opInsertChange (CacheOp.insertDoc
        (CommitShowValue.new ⟨⟨2, 7⟩, DiffFormat.Git, 0⟩ [98])) = some cid ∧
      alookup (CommitShowCache.mk []
          [((7 : ChangeId), (⟨⟨1, 7⟩, DiffFormat.Git, 0⟩ : CommitShowKey))]
          [((⟨⟨1, 7⟩, DiffFormat.Git, 0⟩ : CommitShowKey),
            CommitShowValue.new ⟨⟨1, 7⟩, DiffFormat.Git, 0⟩ [97])]).old_commits cid
        = some ⟨⟨1, 7⟩, DiffFormat.Git, 0⟩ :=
  c7_store_frame.2
    (CommitShowCache.mk []
      [((7 : ChangeId), (⟨⟨1, 7⟩, DiffFormat.Git, 0⟩ : CommitShowKey))]
      [((⟨⟨1, 7⟩, DiffFormat.Git, 0⟩ : CommitShowKey),
        CommitShowValue.new ⟨⟨1, 7⟩, DiffFormat.Git, 0⟩ [97])])
    (CacheOp.insertDoc (CommitShowValue.new ⟨⟨2, 7⟩, DiffFormat.Git, 0⟩ [98]))
    ⟨⟨1, 7⟩, DiffFormat.Git, 0⟩ (by decide) (by decide)

/-- C10: has_exact_match holds exactly when the store holds an entry
under the very key, and it depends only on the store, not on the active
or stale bookkeeping. -/
theorem c10_has_exact_match_spec :
    (∀ (c : CommitShowCache) (key : CommitShowKey),
      c.has_exact_match key = true ↔ ∃ v, alookup c.commit_document key = some v) ∧
    (∀ (c1 c2 : CommitShowCache) (key : CommitShowKey),
      c1.commit_document = c2.commit_document →
      c1.has_exact_match key = c2.has_exact_match key) := by
  constructor
  · intro c key
    rw [CommitShowCache.has_exact_match]
    exact Option.isSome_iff_exists
  · intro c1 c2 key h
    rw [CommitShowCache.has_exact_match, CommitShowCache.has_exact_match, h]

/-- C10 witness: a key held only as a stale entry (not active) still
gives has_exact_match, and clearing all bookkeeping does not change the
answer. -/
theorem c10_witness :
    (CommitShowCache.mk []
        [((7 : ChangeId), (⟨⟨1, 7⟩, DiffFormat.Git, 0⟩ : CommitShowKey))]
        [((⟨⟨1, 7⟩, DiffFormat.Git, 0⟩ : CommitShowKey),
          CommitShowValue.new ⟨⟨1, 7⟩, DiffFormat.Git, 0⟩ [97])]).has_exact_match
      ⟨⟨1, 7⟩, DiffFormat.Git, 0⟩ = true ∧
    (CommitShowCache.mk [] []
        [((⟨⟨1, 7⟩, DiffFormat.Git, 0⟩ : CommitShowKey),
          CommitShowValue.new ⟨⟨1, 7⟩, DiffFormat.Git, 0⟩ [97])]).has_exact_match
      ⟨⟨1, 7⟩, DiffFormat.Git, 0⟩
      = (CommitShowCache.mk []
          [((7 : ChangeId), (⟨⟨1, 7⟩, DiffFormat.Git, 0⟩ : CommitShowKey))]
          [((⟨⟨1, 7⟩, DiffFormat.Git, 0⟩ : CommitShowKey),
            CommitShowValue.new ⟨⟨1, 7⟩, DiffFormat.Git, 0⟩ [97])]).has_exact_match
        ⟨⟨1, 7⟩, DiffFormat.Git, 0⟩ :=
  ⟨(c10_has_exact_match_spec.1 _ _).mpr
      ⟨CommitShowValue.new ⟨⟨1, 7⟩, DiffFormat.Git, 0⟩ [97], rfl⟩,
   c10_has_exact_match_spec.2 _ _ _ rfl⟩
